import Mathlib

/-!
Shallow embedding of `src/smallintset.c` (Julia's small-integer index set):
a growable open-addressing hash set of small positive integers, with
variable-width packed storage (8/16/32-bit slots), a bounded probe sequence,
and a grow-and-rehash policy.

Machine integers are modelled as `Nat`; the only place the C code can
overflow/truncate is the atomic slot store (`jl_intset_release`), which stores
into a fixed-width element, modelled by an explicit `% 2^width`.  Fallible
code (allocation asserts, unbounded C loops) returns `Option`/an explicit
result type with a fuel parameter for the `while (1)` loops.

The caller-supplied callbacks `hash(val, data)` and `eq(val, key, data, hv)`
are modelled as functions `Nat → Nat` and `Nat → Bool` respectively: `data`,
`key` and `hv` are fixed for the duration of each C call, so each call site
closes over them.
-/

namespace SmallIntSet

/-- The element type of the backing `jl_array_t`: `jl_tparam0(jl_typeof(arr))`.
The code dispatches on `uint8`/`uint16`/`uint32`; `any` stands for
`jl_any_type`, the element type of the initial (always empty) cache array. -/
inductive ElType where
  | any : ElType
  | u8 : ElType
  | u16 : ElType
  | u32 : ElType
deriving DecidableEq

/-- `jl_max_int`: maximum value representable in the table's element type
(`0xFF` / `0xFFFF` / `0xFFFFFFFF`), and `0` for `jl_any_type`. -/
def jl_max_int : ElType → Nat
  | .any => 0
  | .u8 => 0xFF
  | .u16 => 0xFFFF
  | .u32 => 0xFFFFFFFF

/-- The modulus a fixed-width atomic store truncates by: a C store of a
`size_t` value into a `uint8_t`/`uint16_t`/`uint32_t` slot keeps the value
mod `2^8`/`2^16`/`2^32`.  For `any` the C accessors `abort()`; every
reachable `any`-typed cache is empty, so that case is never exercised (the
value `1` makes the unreachable case store `0`). -/
def storeMod : ElType → Nat
  | .any => 1
  | .u8 => 2 ^ 8
  | .u16 => 2 ^ 16
  | .u32 => 2 ^ 32

/-- A `jl_array_t` used as a small-int-set cache: its element type and its
slot contents (index `i` holds the stored slot value; `0` = empty). -/
structure JlArray where
  elty : ElType
  data : List Nat
deriving DecidableEq

/-- `jl_array_nrows`. -/
def JlArray.nrows (a : JlArray) : Nat := a.data.length

/-- `jl_intref`: relaxed atomic load of slot `idx` (same-thread read by the
writer).  Out-of-range reads do not occur in the C code; `getD` returns `0`
for them. -/
def jl_intref (a : JlArray) (idx : Nat) : Nat := a.data.getD idx 0

/-- `jl_intref_acquire`: acquire-ordered load of slot `idx`; functionally the
same value as `jl_intref` in a sequential model. -/
def jl_intref_acquire (a : JlArray) (idx : Nat) : Nat := a.data.getD idx 0

/-- `jl_intset_release`: release-ordered store of `val` into slot `idx`.
The store is into a fixed-width element, so the value is truncated mod
`2^width`. -/
def jl_intset_release (a : JlArray) (idx val : Nat) : JlArray :=
  { a with data := a.data.set idx (val % storeMod a.elty) }

/-- `#define max_probe(size) ((size) <= 1024 ? 16 : (size) >> 6)` -/
def max_probe (size : Nat) : Nat := if size ≤ 1024 then 16 else size >>> 6

/-- `#define h2index(hv, sz) (size_t)((hv) & ((sz)-1))` -/
def h2index (hv sz : Nat) : Nat := hv &&& (sz - 1)

/-- `jl_alloc_int_1d(np, len)`: allocate a zero-initialized 1-d array of
`len` elements, element type chosen from `np` (`np < 0xFF` → `uint8`,
`np < 0xFFFF` → `uint16`, otherwise `uint32` after `assert(np < 0x7FFFFFFF)`).
`none` models the failed assert (abort). -/
def jl_alloc_int_1d (np len : Nat) : Option JlArray :=
  if np < 0xFF then some ⟨.u8, List.replicate len 0⟩
  else if np < 0xFFFF then some ⟨.u16, List.replicate len 0⟩
  else if np < 0x7FFFFFFF then some ⟨.u32, List.replicate len 0⟩
  else none

/-- The `do { ... } while (iter <= maxprobe && index != orig)` loop of
`jl_smallintset_lookup`.  `eqf n` models `eq(n, key, data, hv)`.  The `fuel`
argument makes the recursion structural; it is initialized to `maxprobe + 1`,
which dominates the loop guard `iter + 1 ≤ maxprobe`, so the `fuel = 0`
branch is never taken. -/
def lookupLoop (a : JlArray) (eqf : Nat → Bool) (sz orig maxprobe : Nat) :
    Nat → Nat → Nat → Option Nat
  | 0, _, _ => none
  | fuel + 1, index, iter =>
    let val1 := jl_intref_acquire a index
    if val1 = 0 then none
    else if eqf (val1 - 1) then some (val1 - 1)
    else
      let index1 := (index + 1) &&& (sz - 1)
      let iter1 := iter + 1
      if iter1 ≤ maxprobe ∧ index1 ≠ orig then lookupLoop a eqf sz orig maxprobe fuel index1 iter1
      else none

/-- `jl_smallintset_lookup(cache, eq, key, data, hv)`: `none` models the C
return value `-1` (not found); `some n` models a found logical index `n`. -/
def jl_smallintset_lookup (cache : JlArray) (eqf : Nat → Bool) (hv : Nat) : Option Nat :=
  let sz := cache.nrows
  if sz = 0 then none
  else
    let maxprobe := max_probe sz
    let index := h2index hv sz
    lookupLoop cache eqf sz index maxprobe (maxprobe + 1) index 0

/-- The `do { ... } while (iter <= maxprobe && index != orig)` loop of
`smallintset_insert_`.  Same fuel discipline as `lookupLoop`. -/
def insertLoop (a : JlArray) (sz orig maxprobe val1 : Nat) :
    Nat → Nat → Nat → Option JlArray
  | 0, _, _ => none
  | fuel + 1, index, iter =>
    if jl_intref a index = 0 then some (jl_intset_release a index val1)
    else
      let index1 := (index + 1) &&& (sz - 1)
      let iter1 := iter + 1
      if iter1 ≤ maxprobe ∧ index1 ≠ orig then insertLoop a sz orig maxprobe val1 fuel index1 iter1
      else none

/-- `smallintset_insert_(a, hv, val1)`: try to place `val1` in the first
empty slot of the probe sequence.  `some a1` models `return 1` with the
mutated table `a1`; `none` models `return 0` (table too small or probe bound
exhausted, table unmodified). -/
def smallintset_insert_ (a : JlArray) (hv val1 : Nat) : Option JlArray :=
  let sz := a.nrows
  if sz ≤ 1 then none
  else insertLoop a sz (h2index hv sz) (max_probe sz) val1 (max_probe sz + 1) (h2index hv sz) 0

/-- The reinsertion `for` loop of `smallintset_rehash`: walk the old slots in
increasing index order and re-place every non-zero entry into `newa` via
`smallintset_insert_` with a recomputed hash.  `none` models the `break` on a
failed reinsertion (`i != sz` afterwards). -/
def rehashFill (hashf : Nat → Nat) : List Nat → JlArray → Option JlArray
  | [], newa => some newa
  | val1 :: rest, newa =>
    if val1 = 0 then rehashFill hashf rest newa
    else
      match smallintset_insert_ newa (hashf (val1 - 1)) val1 with
      | some newa1 => rehashFill hashf rest newa1
      | none => none

/-- The initial `for` loop of `smallintset_rehash`: raise `np` to the largest
slot value present in the old table. -/
def computeNp (a : JlArray) (np : Nat) : Nat :=
  a.data.foldl (fun np val => if val > np then val else np) np

/-- Result of `smallintset_rehash` / `jl_smallintset_insert` in the model:
`built`/`done` is normal completion, `aborted` is the failed
`assert(np < 0x7FFFFFFF)` in `jl_alloc_int_1d`, `fuelOut` means the fuel
bound for a C `while (1)` loop was reached (the C code would keep looping). -/
inductive Res where
  | fuelOut : Res
  | aborted : Res
  | built : JlArray → Res
deriving DecidableEq

/-- The `while (1)` retry loop of `smallintset_rehash`: allocate a table of
`newsz` slots wide enough for `np`, reinsert all old entries, and on failure
double `newsz` and retry. -/
def rehashLoop (hashf : Nat → Nat) (a : JlArray) (np : Nat) : Nat → Nat → Res
  | _, 0 => .fuelOut
  | newsz, fuel + 1 =>
    match jl_alloc_int_1d np newsz with
    | none => .aborted
    | some newa =>
      match rehashFill hashf a.data newa with
      | some done => .built done
      | none => rehashLoop hashf a np (newsz <<< 1) fuel

/-- `smallintset_rehash(pcache, parent, hash, data, newsz, np)` on current
table `a`: compute `np` from the old contents, then run the retry loop.  A
`built newa` result is atomically published (`jl_atomic_store_release` +
`jl_gc_wb`); the returned table is exactly the published one. -/
def smallintset_rehash (hashf : Nat → Nat) (a : JlArray) (newsz np fuel : Nat) : Res :=
  rehashLoop hashf a (computeNp a np) newsz fuel

/-- `HT_N_INLINE`, the baseline minimum capacity.  Modelled from the spec:
the constant itself is defined in the repository's `htable.h`, outside the
given sources; the spec only calls it the "baseline minimum capacity".  Its
value in the repository is 32. -/
def HT_N_INLINE : Nat := 32

/-- Result of `jl_smallintset_insert` in the model: `done a pubs` returns the
final current table `a` together with the list of tables published
(release-stored to `*pcache`) during the call, in order. -/
inductive IRes where
  | fuelOut : IRes
  | aborted : IRes
  | done : JlArray → List JlArray → IRes
deriving DecidableEq

/-- The grown-capacity computation on the table-full path of
`jl_smallintset_insert` (`smallintset.c` lines 173-182): `HT_N_INLINE` below
the baseline, `sz << 1` when `sz >= (1 << 19) || sz <= (1 << 8)`, else
`sz << 2`. -/
def growNewsz (sz : Nat) : Nat :=
  if sz < HT_N_INLINE then HT_N_INLINE
  else if sz ≥ (1 <<< 19) ∨ sz ≤ (1 <<< 8) then sz <<< 1
  else sz <<< 2

/-- The `while (1)` loop of `jl_smallintset_insert`: try a direct placement;
on failure rehash at the grown capacity and retry.  `rf` is the fuel passed
to each rehash; `pubs` accumulates published tables. -/
def insertLoopTop (hashf : Nat → Nat) (val : Nat) (rf : Nat) :
    JlArray → List JlArray → Nat → IRes
  | _, _, 0 => .fuelOut
  | a, pubs, fuel + 1 =>
    match smallintset_insert_ a (hashf val) (val + 1) with
    | some a1 => .done a1 pubs
    | none =>
      match smallintset_rehash hashf a (growNewsz a.nrows) 0 rf with
      | .built newa => insertLoopTop hashf val rf newa (pubs ++ [newa]) fuel
      | .aborted => .aborted
      | .fuelOut => .fuelOut

/-- `jl_smallintset_insert(pcache, parent, hash, val, data)` on current table
`a`: if `val + 1` exceeds the current element type's maximum, first rehash at
unchanged capacity with `np = val + 1` (the widening rehash), then run the
placement/grow loop. -/
def jl_smallintset_insert (hashf : Nat → Nat) (a : JlArray) (val rf lf : Nat) : IRes :=
  if val + 1 > jl_max_int a.elty then
    match smallintset_rehash hashf a a.nrows (val + 1) rf with
    | .built newa => insertLoopTop hashf val rf newa [newa] lf
    | .aborted => .aborted
    | .fuelOut => .fuelOut
  else insertLoopTop hashf val rf a [] lf

/-- Modelled from the spec: the initial `PackedTable` of an `IndexSet`
("a PackedTable is created either at IndexSet initialization (some baseline
minimum capacity) or by Rehasher"), taken at the baseline minimum capacity
`HT_N_INLINE`, zero-filled, at the narrowest width class.  IndexSet
initialization itself is in the callers, outside the given sources. -/
def initTable : JlArray := ⟨.u8, List.replicate HT_N_INLINE 0⟩

/-- Run a sequence of inserts (one serialized writer), threading the current
table and accumulating every published table; `none` if any insert ran out
of fuel or aborted. -/
def runInserts (hashf : Nat → Nat) (rf lf : Nat) :
    List Nat → JlArray → List JlArray → Option (JlArray × List JlArray)
  | [], a, pubs => some (a, pubs)
  | v :: rest, a, pubs =>
    match jl_smallintset_insert hashf a v rf lf with
    | .done a1 ps => runInserts hashf rf lf rest a1 (pubs ++ ps)
    | _ => none

/-! ### Spec-side definitions (refinement targets)

`lookupSpec` transcribes the specification's description of lookup (spec
§4.2-§4.3 and claim C7): probe from `h mod sz`, step `+1 mod sz`, visit at
most `maxProbe + 1` slots, stop early on returning to the start, return
NotFound on the first empty slot, the decoded index on the first accepted
slot, NotFound on exhaustion. -/

/-- Spec words: the probe loop.  `budget` is the number of slot visits still
allowed, initially `maxProbe + 1`. -/
def lookupSpecLoop (a : JlArray) (eqf : Nat → Bool) (sz start : Nat) :
    Nat → Nat → Option Nat
  | _, 0 => none
  | idx, budget + 1 =>
    let v := jl_intref_acquire a idx
    if v = 0 then none
    else if eqf (v - 1) then some (v - 1)
    else
      let idx1 := (idx + 1) % sz
      if 1 ≤ budget ∧ idx1 ≠ start then lookupSpecLoop a eqf sz start idx1 budget
      else none

/-- Spec words: lookup with capacity 0 returns NotFound immediately;
otherwise probe from `h mod sz` with bound `16` if `sz ≤ 1024`, else
`sz / 64`. -/
def lookupSpec (a : JlArray) (eqf : Nat → Bool) (hv : Nat) : Option Nat :=
  let sz := a.nrows
  if sz = 0 then none
  else
    let maxProbe := if sz ≤ 1024 then 16 else sz / 64
    lookupSpecLoop a eqf sz (hv % sz) (hv % sz) (maxProbe + 1)

/-! ### Concrete scenario: a pending value lost to width narrowing

Insert the logical indices `0..16` and then `300` into an initially empty
set, with the (caller-supplied) hash function `h(v) = 5 + 32v`.  The 17
small values cluster into one probe window; the insert of `300` first widens
the table to 16 bits, finds the window full, grows — and the growth rehash
recomputes `np` from the table contents only, so the grown table is 8-bit
again and the release store of `301` truncates to `45`. -/

def truncHash : Nat → Nat := fun v => 5 + 32 * v

def truncVals : List Nat := List.range 17 ++ [300]

def truncRun : Option (JlArray × List JlArray) :=
  runInserts truncHash 10 10 truncVals initTable []

/-! ### Verification measures (not from the source): occupied-slot counts -/

/-- Number of non-zero (occupied) slots of a table. -/
def nzCard (a : JlArray) : Nat :=
  ((Finset.range a.nrows).filter (fun i => jl_intref a i ≠ 0)).card

/-- Number of non-zero values in a list. -/
def nzListCount (l : List Nat) : Nat :=
  (l.filter (fun v => decide (v ≠ 0))).length

/-! ## Helper lemmas -/

theorem jl_alloc_int_1d_eq_none_iff (np len : Nat) :
    jl_alloc_int_1d np len = none ↔ 0x7FFFFFFF ≤ np := by
  unfold jl_alloc_int_1d
  split_ifs with h1 h2 h3 <;> simp <;> omega

theorem rehashLoop_ne_aborted (hashf : Nat → Nat) (a : JlArray) (np : Nat)
    (h : np < 0x7FFFFFFF) :
    ∀ fuel newsz, rehashLoop hashf a np newsz fuel ≠ Res.aborted := by
  intro fuel
  induction fuel with
  | zero => intro newsz; simp [rehashLoop]
  | succ n ih =>
    intro newsz
    cases halloc : jl_alloc_int_1d np newsz with
    | none =>
      rw [jl_alloc_int_1d_eq_none_iff] at halloc
      omega
    | some newa =>
      simp only [rehashLoop, halloc]
      cases hfill : rehashFill hashf a.data newa with
      | some done => simp
      | none => simpa using ih (newsz <<< 1)

/-! ## Claims -/

/-- C1 (code bug witnessed): insert the distinct logical indices 0..16 and
then 300 into an initially empty IndexSet, with caller-supplied hash
`h(v) = 5 + 32v` and matching equality; the subsequent `lookup` of 300 with
the same hash returns NotFound even though its probe bound was not exceeded
(the entry was placed at probe offset 9 and the lookup stops at an empty
slot, not at the bound): the growth rehash narrowed the table back to 8 bits
and the release store truncated `301` to `45`. -/
theorem C1_roundtrip_code_bug :
    (truncRun.map fun p => jl_smallintset_lookup p.1 (fun i => i == 300) (truncHash 300))
      = some none := rfl

/-- C2 (code bug witnessed): in the same run, the insert of 300 publishes a
16-bit table and then an 8-bit table (the WidthClass of the published table
decreases), and after the insert the current table's maximum representable
value is 255 < 300 + 1. -/
theorem C2_width_code_bug :
    (truncRun.map fun p => (p.2.map fun t => t.elty, jl_max_int p.1.elty))
      = some ([ElType.u16, ElType.u8], 255) ∧ 255 < 300 + 1 :=
  ⟨rfl, by decide⟩

/-- C5 counterexample: at `np = 255` the claim demands the 8-bit class
(`maxValue 255 ≥ 255`), but `jl_alloc_int_1d` tests `np < 0xFF` and picks
the 16-bit class. -/
theorem C5_counterexample :
    ((jl_alloc_int_1d 255 4).map fun t => t.elty) ≠ some ElType.u8 := by decide

/-- C5 (amended): `jl_alloc_int_1d` picks the smallest WidthClass whose
maxValue is strictly greater than `np` (8-bit for `np ≤ 254`, 16-bit for
`255 ≤ np ≤ 65534`, 32-bit above). -/
theorem C5_narrowest_width (np len : Nat) (t : JlArray)
    (h : jl_alloc_int_1d np len = some t) :
    t.elty = (if np < 255 then ElType.u8 else if np < 65535 then ElType.u16 else ElType.u32)
      ∧ np < jl_max_int t.elty
      ∧ (∀ e : ElType, np < jl_max_int e → jl_max_int t.elty ≤ jl_max_int e) := by
  unfold jl_alloc_int_1d at h
  split_ifs at h with h1 h2 h3
  · injection h with h
    subst h
    refine ⟨by simp [h1], by simpa [jl_max_int] using h1, ?_⟩
    intro e he
    cases e <;> simp [jl_max_int] at he ⊢
  · injection h with h
    subst h
    refine ⟨by simp [h1, h2], by simpa [jl_max_int] using h2, ?_⟩
    intro e he
    cases e <;> simp [jl_max_int] at he ⊢
    all_goals omega
  · injection h with h
    subst h
    refine ⟨by simp [h1, h2], by simp [jl_max_int]; omega, ?_⟩
    intro e he
    cases e <;> simp [jl_max_int] at he ⊢ <;> omega

/-- C5 witness: at `np = 300` the 16-bit class is chosen and `300 < 65535`. -/
theorem C5_narrowest_width_witness :
    jl_alloc_int_1d 300 4 = some (JlArray.mk ElType.u16 (List.replicate 4 0))
      ∧ (300 : Nat) < jl_max_int (JlArray.mk ElType.u16 (List.replicate 4 0)).elty :=
  ⟨rfl, (C5_narrowest_width 300 4 (JlArray.mk ElType.u16 (List.replicate 4 0)) rfl).2.1⟩

/-- C6: the grown capacity computed on the table-full path of
`jl_smallintset_insert` is exactly the baseline minimum `HT_N_INLINE` when
`sz` is below it, `sz * 2` when `sz ≥ 2^19` or `sz ≤ 2^8`, and `sz * 4`
otherwise. -/
theorem C6_growth_policy (sz : Nat) :
    (sz < HT_N_INLINE → growNewsz sz = HT_N_INLINE)
      ∧ (HT_N_INLINE ≤ sz → (2 ^ 19 ≤ sz ∨ sz ≤ 2 ^ 8) → growNewsz sz = sz * 2)
      ∧ (HT_N_INLINE ≤ sz → 2 ^ 8 < sz → sz < 2 ^ 19 → growNewsz sz = sz * 4) := by
  unfold growNewsz
  have e19 : (1 : Nat) <<< 19 = 2 ^ 19 := by decide
  have e8 : (1 : Nat) <<< 8 = 2 ^ 8 := by decide
  have es1 : sz <<< 1 = sz * 2 := by rw [Nat.shiftLeft_eq]
  have es2 : sz <<< 2 = sz * 4 := by rw [Nat.shiftLeft_eq]
  rw [e19, e8, es1, es2]
  refine ⟨fun h => by simp [h], fun h1 h2 => ?_, fun h1 h2 h3 => ?_⟩
  · rw [if_neg (by unfold HT_N_INLINE at h1 ⊢; omega), if_pos (by omega)]
  · rw [if_neg (by unfold HT_N_INLINE at h1 ⊢; omega), if_neg (by omega)]

/-- C6 witness: the three cases at `sz = 31`, `sz = 100`, `sz = 1000`. -/
theorem C6_growth_policy_witness :
    (31 < HT_N_INLINE ∧ growNewsz 31 = HT_N_INLINE)
      ∧ (HT_N_INLINE ≤ 100 ∧ 100 ≤ 2 ^ 8 ∧ growNewsz 100 = 100 * 2)
      ∧ (HT_N_INLINE ≤ 1000 ∧ 2 ^ 8 < 1000 ∧ 1000 < 2 ^ 19 ∧ growNewsz 1000 = 1000 * 4) :=
  ⟨⟨by decide, (C6_growth_policy 31).1 (by decide)⟩,
   ⟨by decide, by decide, (C6_growth_policy 100).2.1 (by decide) (Or.inr (by decide))⟩,
   ⟨by decide, by decide, by decide,
     (C6_growth_policy 1000).2.2 (by decide) (by decide) (by decide)⟩⟩

/-- C8 counterexample: a rehash whose required value is
`np = 0x7FFFFFFF = 2^31 - 1` — which represents LogicalIndex `2^31 - 2`,
strictly below the claimed `2^31` boundary — aborts
(`assert(np < 0x7FFFFFFF)` fails). -/
theorem C8_counterexample :
    smallintset_rehash (fun v => v) initTable 32 0x7FFFFFFF 1 = Res.aborted
      ∧ 0x7FFFFFFF - 1 < 2 ^ 31 := by
  constructor
  · rfl
  · decide

/-- C8 (amended): a rehash aborts iff its required value
`np = computeNp a np0` is at least `2^31 - 1` (`0x7FFFFFFF`), i.e. iff the
largest LogicalIndex to represent is at least `2^31 - 2`; below that bound
no abort occurs on this path. -/
theorem C8_abort_boundary (hashf : Nat → Nat) (a : JlArray) (newsz np fuel : Nat)
    (hfuel : 1 ≤ fuel) :
    smallintset_rehash hashf a newsz np fuel = Res.aborted ↔ 0x7FFFFFFF ≤ computeNp a np := by
  constructor
  · intro h
    by_contra hlt
    exact rehashLoop_ne_aborted hashf a _ (by omega) fuel newsz h
  · intro h
    obtain ⟨f, rfl⟩ : ∃ f, fuel = f + 1 := ⟨fuel - 1, by omega⟩
    have halloc : jl_alloc_int_1d (computeNp a np) newsz = none := by
      rw [jl_alloc_int_1d_eq_none_iff]
      exact h
    unfold smallintset_rehash rehashLoop
    simp [halloc]

/-- C8 witness: boundary instance at `np = 0x7FFFFFFF` on an all-zero
table. -/
theorem C8_abort_boundary_witness :
    smallintset_rehash (fun v => v) initTable 32 0x7FFFFFFF 5 = Res.aborted :=
  (C8_abort_boundary (fun v => v) initTable 32 0x7FFFFFFF 5 (by decide)).mpr (by decide)

theorem computeNp_ge (a : JlArray) (np : Nat) :
    np ≤ computeNp a np ∧ ∀ v ∈ a.data, v ≤ computeNp a np := by
  unfold computeNp
  generalize a.data = l
  induction l generalizing np with
  | nil => simp
  | cons x xs ih =>
    simp only [List.foldl_cons]
    obtain ⟨ih1, ih2⟩ := ih (if x > np then x else np)
    have hstep1 : np ≤ if x > np then x else np := by split <;> omega
    have hstep2 : x ≤ if x > np then x else np := by split <;> omega
    refine ⟨by omega, ?_⟩
    intro v hv
    rcases List.mem_cons.mp hv with rfl | hm
    · omega
    · exact ih2 v hm

theorem jl_alloc_int_1d_some_spec (np len : Nat) (t : JlArray)
    (h : jl_alloc_int_1d np len = some t) :
    np < storeMod t.elty ∧ t.data = List.replicate len 0 := by
  unfold jl_alloc_int_1d at h
  split_ifs at h with h1 h2 h3 <;> injection h with h <;> subst h <;>
    simp [storeMod] <;> omega

theorem mem_set_self_of_lt : ∀ (l : List Nat) (i v : Nat), i < l.length → v ∈ l.set i v := by
  intro l
  induction l with
  | nil => intro i v h; simp at h
  | cons x xs ih =>
    intro i v h
    cases i with
    | zero => simp
    | succ n => exact List.mem_cons_of_mem x (ih n v (by simpa using h))

theorem mem_set_of_ne : ∀ (l : List Nat) (i v w : Nat),
    l.getD i 0 = 0 → w ≠ 0 → w ∈ l → w ∈ l.set i v := by
  intro l
  induction l with
  | nil => intro i v w _ _ hw; simp at hw
  | cons x xs ih =>
    intro i v w h0 hw hmem
    cases i with
    | zero =>
      rw [List.getD_cons_zero] at h0
      rcases List.mem_cons.mp hmem with rfl | hm
      · exact absurd h0 hw
      · exact List.mem_cons_of_mem v hm
    | succ n =>
      rcases List.mem_cons.mp hmem with rfl | hm
      · exact List.mem_cons_self w (xs.set n v)
      · exact List.mem_cons_of_mem x (ih n v w (by simpa using h0) hw hm)

theorem insertLoop_some_spec (a : JlArray) (sz orig maxprobe val1 : Nat) (hsz : sz = a.nrows) :
    ∀ fuel index iter a1, index < sz →
      insertLoop a sz orig maxprobe val1 fuel index iter = some a1 →
      a1.elty = a.elty ∧ a1.nrows = a.nrows ∧ (val1 % storeMod a.elty) ∈ a1.data
        ∧ ∀ w ∈ a.data, w ≠ 0 → w ∈ a1.data := by
  intro fuel
  induction fuel with
  | zero => intro index iter a1 _ h; exact absurd h (by simp [insertLoop])
  | succ n ih =>
    intro index iter a1 hidx h
    rw [insertLoop] at h
    by_cases h0 : jl_intref a index = 0
    · rw [if_pos h0] at h
      injection h with h
      subst h
      unfold jl_intset_release JlArray.nrows
      refine ⟨rfl, by simp, ?_, ?_⟩
      · exact mem_set_self_of_lt a.data index _ (by unfold JlArray.nrows at hsz; omega)
      · intro w hw hwne
        exact mem_set_of_ne a.data index _ w h0 hwne hw
    · rw [if_neg h0] at h
      by_cases hc : iter + 1 ≤ maxprobe ∧ (index + 1) &&& (sz - 1) ≠ orig
      · rw [if_pos hc] at h
        exact ih ((index + 1) &&& (sz - 1)) (iter + 1) a1
          (by have := Nat.and_le_right (n := index + 1) (m := sz - 1); omega) h
      · rw [if_neg hc] at h
        exact absurd h (by simp)

theorem smallintset_insert__some_spec (a : JlArray) (hv val1 : Nat) (a1 : JlArray)
    (h : smallintset_insert_ a hv val1 = some a1) :
    a1.elty = a.elty ∧ a1.nrows = a.nrows ∧ (val1 % storeMod a.elty) ∈ a1.data
      ∧ ∀ w ∈ a.data, w ≠ 0 → w ∈ a1.data := by
  unfold smallintset_insert_ at h
  by_cases hsz : a.nrows ≤ 1
  · rw [if_pos hsz] at h
    exact absurd h (by simp)
  · rw [if_neg hsz] at h
    refine insertLoop_some_spec a a.nrows _ _ val1 rfl _ _ 0 a1 ?_ h
    have := Nat.and_le_right (n := hv) (m := a.nrows - 1)
    unfold h2index
    omega

theorem rehashFill_some_spec (hashf : Nat → Nat) :
    ∀ (vals : List Nat) (t t1 : JlArray), rehashFill hashf vals t = some t1 →
      (∀ v ∈ vals, v < storeMod t.elty) →
      t1.elty = t.elty ∧ t1.nrows = t.nrows
        ∧ (∀ w ∈ t.data, w ≠ 0 → w ∈ t1.data)
        ∧ ∀ v ∈ vals, v ≠ 0 → v ∈ t1.data := by
  intro vals
  induction vals with
  | nil =>
    intro t t1 h _
    rw [rehashFill] at h
    injection h with h
    subst h
    exact ⟨rfl, rfl, fun w hw _ => hw, by simp⟩
  | cons v rest ih =>
    intro t t1 h hlt
    rw [rehashFill] at h
    by_cases hv0 : v = 0
    · rw [if_pos hv0] at h
      obtain ⟨he, hn, hp, hr⟩ := ih t t1 h (fun u hu => hlt u (List.mem_cons_of_mem v hu))
      refine ⟨he, hn, hp, ?_⟩
      intro u hu hune
      rcases List.mem_cons.mp hu with rfl | hm
      · exact absurd hv0 hune
      · exact hr u hm hune
    · rw [if_neg hv0] at h
      cases hins : smallintset_insert_ t (hashf (v - 1)) v with
      | none => rw [hins] at h; exact absurd h (by simp)
      | some t2 =>
        rw [hins] at h
        obtain ⟨he2, hn2, hmem2, hpres2⟩ := smallintset_insert__some_spec t _ v t2 hins
        have hlt2 : ∀ u ∈ rest, u < storeMod t2.elty := by
          intro u hu
          rw [he2]
          exact hlt u (List.mem_cons_of_mem v hu)
        obtain ⟨he, hn, hp, hr⟩ := ih t2 t1 h hlt2
        have hvmem : v ∈ t2.data := by
          have := hlt v (List.mem_cons_self v rest)
          rwa [Nat.mod_eq_of_lt this] at hmem2
        refine ⟨he.trans he2, by omega, ?_, ?_⟩
        · intro w hw hwne
          exact hp w (hpres2 w hw hwne) hwne
        · intro u hu hune
          rcases List.mem_cons.mp hu with rfl | hm
          · exact hp u hvmem hune
          · exact hr u hm hune

theorem lookupLoop_eq_specLoop (a : JlArray) (eqf : Nat → Bool) (k orig maxprobe : Nat) :
    ∀ b idx iter, iter ≤ maxprobe → iter + b = maxprobe + 1 →
      lookupLoop a eqf (2 ^ k) orig maxprobe b idx iter
        = lookupSpecLoop a eqf (2 ^ k) orig idx b := by
  intro b
  induction b with
  | zero => intro idx iter h1 h2; omega
  | succ b ih =>
    intro idx iter h1 h2
    simp only [lookupLoop, lookupSpecLoop]
    by_cases hv0 : jl_intref_acquire a idx = 0
    · simp [hv0]
    · by_cases heq : eqf (jl_intref_acquire a idx - 1) = true
      · simp [hv0, heq]
      · rw [Bool.not_eq_true] at heq
        simp only [hv0, heq, if_neg, Bool.false_eq_true, if_false]
        have hmask : (idx + 1) &&& (2 ^ k - 1) = (idx + 1) % 2 ^ k :=
          Nat.and_pow_two_sub_one_eq_mod (idx + 1) k
        rw [hmask]
        have hguard : (iter + 1 ≤ maxprobe) ↔ (1 ≤ b) := by omega
        by_cases hne : (idx + 1) % 2 ^ k ≠ orig
        · by_cases hb : 1 ≤ b
          · rw [if_pos ⟨hguard.mpr hb, hne⟩, if_pos ⟨hb, hne⟩]
            exact ih ((idx + 1) % 2 ^ k) (iter + 1) (by omega) (by omega)
          · rw [if_neg (by tauto), if_neg (by tauto)]
        · rw [if_neg (by tauto), if_neg (by tauto)]

/-- C7: lookup immediately returns NotFound on an empty table, and on any
table of power-of-two capacity it behaves exactly as the specification's
probe description (`lookupSpec`): start at `h mod sz`, step `+1 mod sz`,
visit at most `maxProbe + 1` slots with `maxProbe = 16` for `sz ≤ 1024` and
`sz / 64` otherwise, stop early on returning to the start, NotFound on the
first empty slot, `v - 1` on the first accepted non-zero slot, NotFound on
exhaustion. -/
theorem C7_lookup_matches_spec :
    (∀ (a : JlArray) (eqf : Nat → Bool) (hv : Nat),
        a.nrows = 0 → jl_smallintset_lookup a eqf hv = none)
      ∧ (∀ (a : JlArray) (eqf : Nat → Bool) (hv k : Nat),
        a.nrows = 2 ^ k → jl_smallintset_lookup a eqf hv = lookupSpec a eqf hv) := by
  constructor
  · intro a eqf hv h
    simp [jl_smallintset_lookup, h]
  · intro a eqf hv k h
    unfold jl_smallintset_lookup lookupSpec
    rw [h]
    have hne : ¬(2 ^ k = 0) := by positivity
    rw [if_neg hne, if_neg hne]
    have hmask : h2index hv (2 ^ k) = hv % 2 ^ k := Nat.and_pow_two_sub_one_eq_mod hv k
    have hmp : max_probe (2 ^ k) = if 2 ^ k ≤ 1024 then 16 else 2 ^ k / 64 := by
      unfold max_probe
      rcases le_or_lt (2 ^ k) 1024 with hle | hlt
      · rw [if_pos hle, if_pos hle]
      · rw [if_neg (by omega), if_neg (by omega), Nat.shiftRight_eq_div_pow]
    rw [hmask, hmp]
    exact lookupLoop_eq_specLoop a eqf k (hv % 2 ^ k) _ (_ + 1) (hv % 2 ^ k) 0
      (Nat.zero_le _) (by omega)

theorem rehashLoop_built_spec (hashf : Nat → Nat) (a : JlArray) (np : Nat) :
    ∀ fuel newsz newa, rehashLoop hashf a np newsz fuel = Res.built newa →
      (∀ v ∈ a.data, v ≤ np) →
      np < storeMod newa.elty
        ∧ (∀ v ∈ a.data, v ≠ 0 → v ∈ newa.data)
        ∧ ∃ i, newa.nrows = newsz * 2 ^ i := by
  intro fuel
  induction fuel with
  | zero => intro newsz newa h _; exact absurd h (by simp [rehashLoop])
  | succ n ih =>
    intro newsz newa h hle
    rw [rehashLoop] at h
    split at h
    · exact absurd h (by simp)
    · rename_i t0 halloc
      obtain ⟨hnp, hdata⟩ := jl_alloc_int_1d_some_spec np newsz t0 halloc
      split at h
      · rename_i t1 hfill
        injection h with h
        subst h
        obtain ⟨he, hn, _, hr⟩ := rehashFill_some_spec hashf a.data t0 t1 hfill
          (fun v hv => lt_of_le_of_lt (hle v hv) hnp)
        refine ⟨he ▸ hnp, hr, 0, ?_⟩
        rw [hn]
        unfold JlArray.nrows
        simp [hdata]
      · rename_i hfill
        obtain ⟨h1, h2, i, hi⟩ := ih (newsz <<< 1) newa h hle
        refine ⟨h1, h2, i + 1, ?_⟩
        rw [hi, Nat.shiftLeft_eq]
        ring

theorem smallintset_rehash_built_spec (hashf : Nat → Nat) (a : JlArray) (newsz np fuel : Nat)
    (newa : JlArray) (h : smallintset_rehash hashf a newsz np fuel = Res.built newa) :
    computeNp a np < storeMod newa.elty
      ∧ (∀ v ∈ a.data, v ≠ 0 → v ∈ newa.data)
      ∧ ∃ i, newa.nrows = newsz * 2 ^ i := by
  refine rehashLoop_built_spec hashf a _ fuel newsz newa h ?_
  intro v hv
  have h2 := (computeNp_ge a np).2 v hv
  omega

/-- C4: a rehash only publishes (`Res.built`) a table that contains every
non-zero entry of the old table; any retry restarts from an empty table at
doubled capacity, so the published capacity is `newsz * 2^i` for the number
of retries `i`.  (The reinsertion itself walks old slots in increasing index
order with the recomputed hash `hashf (val1 - 1)` — see `rehashFill`.) -/
theorem C4_rehash_preservation (hashf : Nat → Nat) (a : JlArray) (newsz np fuel : Nat)
    (newa : JlArray) (h : smallintset_rehash hashf a newsz np fuel = Res.built newa) :
    (∀ v ∈ a.data, v ≠ 0 → v ∈ newa.data) ∧ ∃ i, newa.nrows = newsz * 2 ^ i :=
  ⟨(smallintset_rehash_built_spec hashf a newsz np fuel newa h).2.1,
   (smallintset_rehash_built_spec hashf a newsz np fuel newa h).2.2⟩

/-- C4 witness: rehashing `[0, 3, 0, 5]` at capacity 8 keeps both entries. -/
theorem C4_rehash_preservation_witness :
    smallintset_rehash (fun v => v) (JlArray.mk ElType.u8 [0, 3, 0, 5]) 8 0 5
        = Res.built (JlArray.mk ElType.u8 [0, 0, 3, 0, 5, 0, 0, 0])
      ∧ 3 ∈ (JlArray.mk ElType.u8 [0, 0, 3, 0, 5, 0, 0, 0]).data
      ∧ ∃ i, (JlArray.mk ElType.u8 [0, 0, 3, 0, 5, 0, 0, 0]).nrows = 8 * 2 ^ i :=
  ⟨rfl,
   (C4_rehash_preservation (fun v => v) (JlArray.mk ElType.u8 [0, 3, 0, 5]) 8 0 5
     (JlArray.mk ElType.u8 [0, 0, 3, 0, 5, 0, 0, 0]) rfl).1 3 (by decide) (by decide),
   (C4_rehash_preservation (fun v => v) (JlArray.mk ElType.u8 [0, 3, 0, 5]) 8 0 5
     (JlArray.mk ElType.u8 [0, 0, 3, 0, 5, 0, 0, 0]) rfl).2⟩

theorem shiftLeft_one (n : Nat) : n <<< 1 = n * 2 := by
  rw [Nat.shiftLeft_eq, pow_one]

theorem shiftLeft_two (n : Nat) : n <<< 2 = n * 4 := by
  rw [Nat.shiftLeft_eq]

theorem growNewsz_ge (sz : Nat) : HT_N_INLINE ≤ growNewsz sz := by
  unfold growNewsz
  split_ifs with h1 h2
  · exact le_refl _
  · rw [shiftLeft_one]
    unfold HT_N_INLINE at h1 ⊢
    omega
  · rw [shiftLeft_two]
    unfold HT_N_INLINE at h1 ⊢
    omega

theorem sizeInv_mul_pow (m i : Nat) (h : m = 0 ∨ HT_N_INLINE ≤ m) :
    m * 2 ^ i = 0 ∨ HT_N_INLINE ≤ m * 2 ^ i := by
  rcases h with h | h
  · left
    simp [h]
  · right
    have h2 : 1 ≤ 2 ^ i := Nat.one_le_two_pow
    calc HT_N_INLINE ≤ m := h
    _ = m * 1 := by ring
    _ ≤ m * 2 ^ i := Nat.mul_le_mul_left m h2

theorem insertLoopTop_sizeInv (hashf : Nat → Nat) (val rf : Nat) :
    ∀ lf a pubs t pr, insertLoopTop hashf val rf a pubs lf = IRes.done t pr →
      (a.nrows = 0 ∨ HT_N_INLINE ≤ a.nrows) →
      (∀ p ∈ pubs, p.nrows = 0 ∨ HT_N_INLINE ≤ p.nrows) →
      (t.nrows = 0 ∨ HT_N_INLINE ≤ t.nrows)
        ∧ ∀ p ∈ pr, p.nrows = 0 ∨ HT_N_INLINE ≤ p.nrows := by
  intro lf
  induction lf with
  | zero => intro a pubs t pr h _ _; exact absurd h (by simp [insertLoopTop])
  | succ n ih =>
    intro a pubs t pr h ha hpubs
    rw [insertLoopTop] at h
    split at h
    · rename_i a1 hins
      injection h with h1 h2
      subst h1
      subst h2
      obtain ⟨_, hn, _, _⟩ := smallintset_insert__some_spec a _ _ a1 hins
      rw [hn]
      exact ⟨ha, hpubs⟩
    · split at h
      · rename_i newa hreh
        obtain ⟨i, hi⟩ := (smallintset_rehash_built_spec hashf a _ 0 rf newa hreh).2.2
        have hge : HT_N_INLINE ≤ newa.nrows := by
          rw [hi]
          rcases sizeInv_mul_pow (growNewsz a.nrows) i (Or.inr (growNewsz_ge a.nrows)) with h0 | h0
          · have := growNewsz_ge a.nrows
            have h2 : 1 ≤ 2 ^ i := Nat.one_le_two_pow
            unfold HT_N_INLINE at this
            nlinarith
          · exact h0
        refine ih newa (pubs ++ [newa]) t pr h (Or.inr hge) ?_
        intro p hp
        rcases List.mem_append.mp hp with hp | hp
        · exact hpubs p hp
        · rw [List.mem_singleton.mp hp]
          exact Or.inr hge
      · exact absurd h (by simp)
      · exact absurd h (by simp)

/-- C10: the direct-placement step `smallintset_insert_` reports failure on
any table of capacity 0 or 1 (the model returns no table: no slot written),
and along `jl_smallintset_insert` every published table and the final table
have capacity 0 or at least `HT_N_INLINE`; hence any table holding a
non-zero slot has capacity at least `HT_N_INLINE`. -/
theorem C10_min_capacity :
    (∀ (a : JlArray) (hv val1 : Nat), a.nrows ≤ 1 → smallintset_insert_ a hv val1 = none)
      ∧ ∀ (hashf : Nat → Nat) (a : JlArray) (val rf lf : Nat) (t : JlArray)
          (pubs : List JlArray),
          jl_smallintset_insert hashf a val rf lf = IRes.done t pubs →
          (a.nrows = 0 ∨ HT_N_INLINE ≤ a.nrows) →
          ((∃ w ∈ t.data, w ≠ 0) → HT_N_INLINE ≤ t.nrows)
            ∧ (t.nrows = 0 ∨ HT_N_INLINE ≤ t.nrows)
            ∧ ∀ p ∈ pubs, ((∃ w ∈ p.data, w ≠ 0) → HT_N_INLINE ≤ p.nrows)
                ∧ (p.nrows = 0 ∨ HT_N_INLINE ≤ p.nrows) := by
  have hnz : ∀ (u : JlArray), (u.nrows = 0 ∨ HT_N_INLINE ≤ u.nrows) →
      (∃ w ∈ u.data, w ≠ 0) → HT_N_INLINE ≤ u.nrows := by
    intro u hu ⟨w, hw, _⟩
    rcases hu with h0 | h0
    · rw [List.length_eq_zero.mp h0] at hw
      simp at hw
    · exact h0
  constructor
  · intro a hv val1 h
    unfold smallintset_insert_
    rw [if_pos h]
  · intro hashf a val rf lf t pubs h ha
    unfold jl_smallintset_insert at h
    have main : (t.nrows = 0 ∨ HT_N_INLINE ≤ t.nrows)
        ∧ ∀ p ∈ pubs, p.nrows = 0 ∨ HT_N_INLINE ≤ p.nrows := by
      split_ifs at h with hwide
      · split at h
        · rename_i newa hreh
          obtain ⟨i, hi⟩ := (smallintset_rehash_built_spec hashf a _ _ rf newa hreh).2.2
          have hinv : newa.nrows = 0 ∨ HT_N_INLINE ≤ newa.nrows := hi ▸ sizeInv_mul_pow _ i ha
          refine insertLoopTop_sizeInv hashf val rf lf newa [newa] t pubs h hinv ?_
          intro p hp
          rw [List.mem_singleton.mp hp]
          exact hinv
        · exact absurd h (by simp)
        · exact absurd h (by simp)
      · exact insertLoopTop_sizeInv hashf val rf lf a [] t pubs h ha (by simp)
    refine ⟨hnz t main.1, main.1, ?_⟩
    intro p hp
    exact ⟨hnz p (main.2 p hp), main.2 p hp⟩

/-- C10 witness: capacity-1 failure, and a first insert into the baseline
table keeping capacity `HT_N_INLINE`. -/
theorem C10_min_capacity_witness :
    smallintset_insert_ (JlArray.mk ElType.u8 [0]) 5 7 = none
      ∧ HT_N_INLINE ≤ (JlArray.mk ElType.u8 ((List.replicate 32 0).set 3 4)).nrows :=
  ⟨C10_min_capacity.1 (JlArray.mk ElType.u8 [0]) 5 7 (by decide),
   (C10_min_capacity.2 (fun v => v) initTable 3 2 2
     (JlArray.mk ElType.u8 ((List.replicate 32 0).set 3 4)) [] rfl
     (Or.inr (by decide))).1 ⟨4, by decide, by decide⟩⟩

theorem getD_set_ne : ∀ (l : List Nat) (idx i v : Nat), i ≠ idx →
    (l.set idx v).getD i 0 = l.getD i 0 := by
  intro l
  induction l with
  | nil => intro idx i v _; rfl
  | cons x xs ih =>
    intro idx i v h
    cases idx with
    | zero =>
      cases i with
      | zero => exact absurd rfl h
      | succ j => simp
    | succ m =>
      cases i with
      | zero => simp
      | succ j =>
        simp only [List.set_cons_succ, List.getD_cons_succ]
        exact ih m j v (fun hh => h (by rw [hh]))

theorem getD_replicate_zero : ∀ (n i : Nat), (List.replicate n (0 : Nat)).getD i 0 = 0 := by
  intro n
  induction n with
  | zero => intro i; rfl
  | succ m ih =>
    intro i
    cases i with
    | zero => rfl
    | succ j => exact ih j

theorem maxprobe_add_one_le (sz : Nat) (h : 32 ≤ sz) : max_probe sz + 1 ≤ sz := by
  unfold max_probe
  split_ifs with h1
  · omega
  · rw [Nat.shiftRight_eq_div_pow]
    have : sz / 2 ^ 6 = sz / 64 := by norm_num
    omega

theorem nzCard_release_le (a : JlArray) (idx v : Nat) :
    nzCard (jl_intset_release a idx v) ≤ nzCard a + 1 := by
  unfold nzCard jl_intset_release jl_intref JlArray.nrows
  simp only [List.length_set]
  have hsub : (Finset.range a.data.length).filter
        (fun i => (a.data.set idx (v % storeMod a.elty)).getD i 0 ≠ 0)
      ⊆ insert idx ((Finset.range a.data.length).filter (fun i => a.data.getD i 0 ≠ 0)) := by
    intro i hi
    obtain ⟨hr, hnz⟩ := Finset.mem_filter.mp hi
    by_cases hii : i = idx
    · rw [hii]
      exact Finset.mem_insert_self idx _
    · refine Finset.mem_insert_of_mem (Finset.mem_filter.mpr ⟨hr, ?_⟩)
      rwa [getD_set_ne a.data idx i _ hii] at hnz
  calc ((Finset.range a.data.length).filter
        (fun i => (a.data.set idx (v % storeMod a.elty)).getD i 0 ≠ 0)).card
      ≤ (insert idx ((Finset.range a.data.length).filter (fun i => a.data.getD i 0 ≠ 0))).card :=
        Finset.card_le_card hsub
    _ ≤ _ + 1 := Finset.card_insert_le _ _

theorem list_nzCard_eq : ∀ (l : List Nat),
    ((Finset.range l.length).filter (fun i => l.getD i 0 ≠ 0)).card = nzListCount l := by
  intro l
  induction l using List.reverseRecOn with
  | nil => simp [nzListCount]
  | append_singleton xs x ih =>
    have hlen : (xs ++ [x]).length = xs.length + 1 := by simp
    rw [hlen, Finset.range_succ, Finset.filter_insert]
    have hcongr : (Finset.range xs.length).filter (fun i => (xs ++ [x]).getD i 0 ≠ 0)
        = (Finset.range xs.length).filter (fun i => xs.getD i 0 ≠ 0) := by
      refine Finset.filter_congr ?_
      intro i hi
      rw [List.getD_append xs [x] 0 i (Finset.mem_range.mp hi)]
    have hlast : (xs ++ [x]).getD xs.length 0 = x := by
      rw [List.getD_eq_getElem?_getD, List.getElem?_append_right (le_refl xs.length)]
      simp
    have hcount : nzListCount (xs ++ [x]) = nzListCount xs + if x ≠ 0 then 1 else 0 := by
      unfold nzListCount
      rw [List.filter_append]
      by_cases hx : x = 0 <;> simp [hx]
    rw [hcount, hcongr, hlast]
    by_cases hx : x = 0
    · rw [if_neg (by simpa using hx), if_neg (by simpa using hx), ih]
      omega
    · rw [if_pos (by simpa using hx), if_pos (by simpa using hx),
        Finset.card_insert_of_not_mem (fun hmem => ?_), ih]
      exact absurd (Finset.mem_range.mp (Finset.filter_subset _ _ hmem)) (lt_irrefl _)

theorem nzCard_eq_nzListCount (a : JlArray) : nzCard a = nzListCount a.data :=
  list_nzCard_eq a.data

theorem foldl_np_lt : ∀ (l : List Nat) (np M : Nat), np < M → (∀ v ∈ l, v < M) →
    l.foldl (fun np val => if val > np then val else np) np < M := by
  intro l
  induction l with
  | nil => intro np M h1 _; exact h1
  | cons x xs ih =>
    intro np M h1 h2
    simp only [List.foldl_cons]
    have hx : x < M := h2 x (List.mem_cons_self x xs)
    have hstep : (if x > np then x else np) < M := by split <;> omega
    exact ih _ M hstep (fun v hv => h2 v (List.mem_cons_of_mem x hv))

theorem computeNp_lt (a : JlArray) (np M : Nat) (h1 : np < M) (h2 : ∀ v ∈ a.data, v < M) :
    computeNp a np < M := foldl_np_lt a.data np M h1 h2

theorem nzCard_zero_table (e : ElType) (n : Nat) :
    nzCard (JlArray.mk e (List.replicate n 0)) = 0 := by
  unfold nzCard
  rw [Finset.card_eq_zero, Finset.filter_eq_empty_iff]
  intro i _
  simp [jl_intref, getD_replicate_zero]

theorem mod_succ_step (x n : Nat) (hn : 1 < n) : (x % n + 1) % n = (x + 1) % n := by
  conv_rhs => rw [Nat.add_mod]
  rw [Nat.mod_eq_of_lt hn]

theorem insertLoop_none_window (a : JlArray) (k orig val1 : Nat)
    (hsz : a.nrows = 2 ^ k) (h32 : 32 ≤ a.nrows) (horig : orig < a.nrows) :
    ∀ b iter, iter + b = max_probe a.nrows + 1 →
      insertLoop a a.nrows orig (max_probe a.nrows) val1 b ((orig + iter) % a.nrows) iter = none →
      ∀ d, iter ≤ d → d ≤ max_probe a.nrows → jl_intref a ((orig + d) % a.nrows) ≠ 0 := by
  have hmp : max_probe a.nrows + 1 ≤ a.nrows := maxprobe_add_one_le a.nrows h32
  intro b
  induction b with
  | zero => intro iter hb _ d hd1 hd2; omega
  | succ b ih =>
    intro iter hb h d hd1 hd2
    simp only [insertLoop] at h
    by_cases h0 : jl_intref a ((orig + iter) % a.nrows) = 0
    · rw [if_pos h0] at h
      exact absurd h (by simp)
    · rw [if_neg h0] at h
      have hmask : ((orig + iter) % a.nrows + 1) &&& (a.nrows - 1)
          = (orig + iter + 1) % a.nrows := by
        rw [hsz, Nat.and_pow_two_sub_one_eq_mod]
        exact mod_succ_step (orig + iter) (2 ^ k) (by omega)
      rw [hmask] at h
      rcases Nat.eq_or_lt_of_le hd1 with rfl | hlt
      · exact h0
      · by_cases hg : iter + 1 ≤ max_probe a.nrows ∧ (orig + iter + 1) % a.nrows ≠ orig
        · rw [if_pos hg] at h
          exact ih (iter + 1) (by omega) h d (by omega) hd2
        · push_neg at hg
          by_cases hgl : iter + 1 ≤ max_probe a.nrows
          · have heq : (orig + iter + 1) % a.nrows = orig := hg hgl
            have h1 : (orig + (iter + 1)) % a.nrows = (orig + 0) % a.nrows := by
              rw [add_zero, Nat.mod_eq_of_lt horig]
              exact heq
            have h2 : (iter + 1) % a.nrows = 0 % a.nrows :=
              Nat.ModEq.add_left_cancel' orig h1
            rw [Nat.zero_mod] at h2
            have hge : ¬(iter + 1 < a.nrows) := by
              intro hlt2
              rw [Nat.mod_eq_of_lt hlt2] at h2
              omega
            omega
          · omega

theorem nzCard_ge_of_window (a : JlArray) (orig m : Nat) (horig : orig < a.nrows)
    (hm : m ≤ a.nrows)
    (hall : ∀ d, d < m → jl_intref a ((orig + d) % a.nrows) ≠ 0) :
    m ≤ nzCard a := by
  have hsz0 : 0 < a.nrows := by omega
  unfold nzCard
  have hcard : (Finset.range m).card
      ≤ ((Finset.range a.nrows).filter (fun i => jl_intref a i ≠ 0)).card := by
    refine Finset.card_le_card_of_injOn (fun d => (orig + d) % a.nrows) ?_ ?_
    · intro d hd
      rw [Finset.mem_range] at hd
      exact Finset.mem_filter.mpr ⟨Finset.mem_range.mpr (Nat.mod_lt _ hsz0), hall d hd⟩
    · intro d1 hd1 d2 hd2 heq
      simp only [Finset.coe_range, Set.mem_Iio] at hd1 hd2
      have h1 : d1 % a.nrows = d2 % a.nrows := Nat.ModEq.add_left_cancel' orig heq
      rwa [Nat.mod_eq_of_lt (by omega), Nat.mod_eq_of_lt (by omega)] at h1
  simpa using hcard

theorem smallintset_insert__succeeds (a : JlArray) (hv val1 k : Nat)
    (hsz : a.nrows = 2 ^ k) (h32 : 32 ≤ a.nrows)
    (hcount : nzCard a ≤ max_probe a.nrows) :
    ∃ a1, smallintset_insert_ a hv val1 = some a1 := by
  cases hres : smallintset_insert_ a hv val1 with
  | some a1 => exact ⟨a1, rfl⟩
  | none =>
    exfalso
    have horig : h2index hv a.nrows < a.nrows := by
      have := Nat.and_le_right (n := hv) (m := a.nrows - 1)
      unfold h2index
      omega
    unfold smallintset_insert_ at hres
    rw [if_neg (by omega)] at hres
    have hres1 : insertLoop a a.nrows (h2index hv a.nrows) (max_probe a.nrows) val1
        (max_probe a.nrows + 1) ((h2index hv a.nrows + 0) % a.nrows) 0 = none := by
      rw [add_zero, Nat.mod_eq_of_lt horig]
      exact hres
    have hwin := insertLoop_none_window a k (h2index hv a.nrows) val1 hsz h32 horig
      (max_probe a.nrows + 1) 0 (by omega) hres1
    have hge := nzCard_ge_of_window a (h2index hv a.nrows) (max_probe a.nrows + 1) horig
      (maxprobe_add_one_le a.nrows h32) (fun d hd => hwin d (by omega) (by omega))
    omega

theorem insertLoop_some_shape (a : JlArray) (sz orig maxprobe val1 : Nat) :
    ∀ fuel index iter a1, insertLoop a sz orig maxprobe val1 fuel index iter = some a1 →
      ∃ idx, jl_intref a idx = 0 ∧ a1 = jl_intset_release a idx val1 := by
  intro fuel
  induction fuel with
  | zero => intro _ _ _ h; exact absurd h (by simp [insertLoop])
  | succ n ih =>
    intro index iter a1 h
    simp only [insertLoop] at h
    by_cases h0 : jl_intref a index = 0
    · rw [if_pos h0] at h
      injection h with h
      exact ⟨index, h0, h.symm⟩
    · rw [if_neg h0] at h
      by_cases hg : iter + 1 ≤ maxprobe ∧ (index + 1) &&& (sz - 1) ≠ orig
      · rw [if_pos hg] at h
        exact ih _ _ a1 h
      · rw [if_neg hg] at h
        exact absurd h (by simp)

theorem smallintset_insert__shape (a : JlArray) (hv val1 : Nat) (a1 : JlArray)
    (h : smallintset_insert_ a hv val1 = some a1) :
    ∃ idx, jl_intref a idx = 0 ∧ a1 = jl_intset_release a idx val1 := by
  unfold smallintset_insert_ at h
  by_cases hsz : a.nrows ≤ 1
  · rw [if_pos hsz] at h
    exact absurd h (by simp)
  · rw [if_neg hsz] at h
    exact insertLoop_some_shape a a.nrows _ _ val1 _ _ 0 a1 h

theorem smallintset_insert__nzCard_le (a : JlArray) (hv val1 : Nat) (a1 : JlArray)
    (h : smallintset_insert_ a hv val1 = some a1) :
    nzCard a1 ≤ nzCard a + 1 := by
  obtain ⟨idx, _, rfl⟩ := smallintset_insert__shape a hv val1 a1 h
  exact nzCard_release_le a idx val1

theorem smallintset_insert__values (a : JlArray) (hv val1 : Nat) (a1 : JlArray)
    (h : smallintset_insert_ a hv val1 = some a1) :
    ∀ w ∈ a1.data, w ∈ a.data ∨ w = val1 % storeMod a.elty := by
  obtain ⟨idx, _, rfl⟩ := smallintset_insert__shape a hv val1 a1 h
  intro w hw
  exact List.mem_or_eq_of_mem_set hw

theorem nzListCount_cons (v : Nat) (l : List Nat) :
    nzListCount (v :: l) = nzListCount l + if v = 0 then 0 else 1 := by
  unfold nzListCount
  by_cases hv : v = 0 <;> simp [hv]

theorem rehashFill_count_values (hashf : Nat → Nat) :
    ∀ (vals : List Nat) (t t1 : JlArray), rehashFill hashf vals t = some t1 →
      nzCard t1 ≤ nzCard t + nzListCount vals
        ∧ ∀ w ∈ t1.data, w ∈ t.data ∨ ∃ v, v ∈ vals ∧ w = v % storeMod t.elty := by
  intro vals
  induction vals with
  | nil =>
    intro t t1 h
    rw [rehashFill] at h
    injection h with h
    subst h
    exact ⟨by simp [nzListCount], fun w hw => Or.inl hw⟩
  | cons v rest ih =>
    intro t t1 h
    rw [rehashFill] at h
    by_cases hv0 : v = 0
    · rw [if_pos hv0] at h
      obtain ⟨hc, hval⟩ := ih t t1 h
      refine ⟨by rw [nzListCount_cons, if_pos hv0]; omega, ?_⟩
      intro w hw
      rcases hval w hw with hin | ⟨u, hu, he⟩
      · exact Or.inl hin
      · exact Or.inr ⟨u, List.mem_cons_of_mem v hu, he⟩
    · rw [if_neg hv0] at h
      cases hins : smallintset_insert_ t (hashf (v - 1)) v with
      | none => rw [hins] at h; exact absurd h (by simp)
      | some t2 =>
        rw [hins] at h
        obtain ⟨he2, _, _, _⟩ := smallintset_insert__some_spec t _ v t2 hins
        obtain ⟨hc, hval⟩ := ih t2 t1 h
        have hc2 := smallintset_insert__nzCard_le t _ v t2 hins
        refine ⟨by rw [nzListCount_cons, if_neg hv0]; omega, ?_⟩
        intro w hw
        rcases hval w hw with hin | ⟨u, hu, he⟩
        · rcases smallintset_insert__values t _ v t2 hins w hin with hin2 | he2
          · exact Or.inl hin2
          · exact Or.inr ⟨v, List.mem_cons_self v rest, he2⟩
        · rw [he2] at he
          exact Or.inr ⟨u, List.mem_cons_of_mem v hu, he⟩

theorem rehashFill_succeeds (hashf : Nat → Nat) :
    ∀ (vals : List Nat) (t : JlArray) (k : Nat), t.nrows = 2 ^ k → 32 ≤ t.nrows →
      nzCard t + nzListCount vals ≤ max_probe t.nrows →
      ∃ t1, rehashFill hashf vals t = some t1 := by
  intro vals
  induction vals with
  | nil => intro t _ _ _ _; exact ⟨t, rfl⟩
  | cons v rest ih =>
    intro t k hsz h32 hbudget
    by_cases hv0 : v = 0
    · obtain ⟨t1, ht1⟩ := ih t k hsz h32
        (by rw [nzListCount_cons, if_pos hv0] at hbudget; omega)
      exact ⟨t1, by rw [rehashFill, if_pos hv0]; exact ht1⟩
    · rw [nzListCount_cons, if_neg hv0] at hbudget
      obtain ⟨t2, hins⟩ := smallintset_insert__succeeds t (hashf (v - 1)) v k hsz h32 (by omega)
      obtain ⟨he2, hn2, _, _⟩ := smallintset_insert__some_spec t _ v t2 hins
      have hc2 := smallintset_insert__nzCard_le t _ v t2 hins
      obtain ⟨t1, ht1⟩ := ih t2 k (by omega) (by omega)
        (by rw [hn2]; omega)
      refine ⟨t1, ?_⟩
      rw [rehashFill, if_neg hv0, hins]
      exact ht1

theorem rehashLoop_step_built (hashf : Nat → Nat) (a : JlArray) (np newsz fuel : Nat)
    (t0 t1 : JlArray) (halloc : jl_alloc_int_1d np newsz = some t0)
    (hfill : rehashFill hashf a.data t0 = some t1) :
    rehashLoop hashf a np newsz (fuel + 1) = Res.built t1 := by
  simp only [rehashLoop, halloc, hfill]

theorem rehashLoop_step_retry (hashf : Nat → Nat) (a : JlArray) (np newsz fuel : Nat)
    (t0 : JlArray) (halloc : jl_alloc_int_1d np newsz = some t0)
    (hfill : rehashFill hashf a.data t0 = none) :
    rehashLoop hashf a np newsz (fuel + 1) = rehashLoop hashf a np (newsz <<< 1) fuel := by
  simp only [rehashLoop, halloc, hfill]

theorem rehashLoop_mono (hashf : Nat → Nat) (a : JlArray) (np : Nat) :
    ∀ fuel fuel1 newsz newa, fuel ≤ fuel1 →
      rehashLoop hashf a np newsz fuel = Res.built newa →
      rehashLoop hashf a np newsz fuel1 = Res.built newa := by
  intro fuel
  induction fuel with
  | zero => intro fuel1 newsz newa _ h; exact absurd h (by simp [rehashLoop])
  | succ n ih =>
    intro fuel1 newsz newa hle h
    obtain ⟨m, rfl⟩ : ∃ m, fuel1 = m + 1 := ⟨fuel1 - 1, by omega⟩
    cases halloc : jl_alloc_int_1d np newsz with
    | none =>
      simp only [rehashLoop, halloc] at h
      exact absurd h (by simp)
    | some t0 =>
      cases hfill : rehashFill hashf a.data t0 with
      | some t1 =>
        rw [rehashLoop_step_built hashf a np newsz n t0 t1 halloc hfill] at h
        rw [rehashLoop_step_built hashf a np newsz m t0 t1 halloc hfill]
        exact h
      | none =>
        rw [rehashLoop_step_retry hashf a np newsz n t0 halloc hfill] at h
        rw [rehashLoop_step_retry hashf a np newsz m t0 halloc hfill]
        exact ih m (newsz <<< 1) newa (by omega) h

theorem jl_alloc_int_1d_isSome (np len : Nat) (h : np < 0x7FFFFFFF) :
    ∃ t0, jl_alloc_int_1d np len = some t0 := by
  cases hx : jl_alloc_int_1d np len with
  | some t0 => exact ⟨t0, rfl⟩
  | none =>
    rw [jl_alloc_int_1d_eq_none_iff] at hx
    omega

theorem alloc_nzCard_zero (np len : Nat) (t0 : JlArray)
    (halloc : jl_alloc_int_1d np len = some t0) : nzCard t0 = 0 := by
  obtain ⟨_, hdata⟩ := jl_alloc_int_1d_some_spec np len t0 halloc
  unfold nzCard jl_intref
  rw [Finset.card_eq_zero, Finset.filter_eq_empty_iff]
  intro i _
  rw [hdata]
  simp [getD_replicate_zero]

theorem alloc_nrows (np len : Nat) (t0 : JlArray)
    (halloc : jl_alloc_int_1d np len = some t0) : t0.nrows = len := by
  obtain ⟨_, hdata⟩ := jl_alloc_int_1d_some_spec np len t0 halloc
  unfold JlArray.nrows
  rw [hdata]
  simp

theorem rehashLoop_succeeds (hashf : Nat → Nat) (a : JlArray) (np : Nat)
    (hnp : np < 0x7FFFFFFF) :
    ∀ K newsz, (∃ j, newsz = 2 ^ j) →
      max 2048 (64 * (nzListCount a.data + 1)) ≤ newsz * 2 ^ K →
      ∃ newa, rehashLoop hashf a np newsz (K + 1) = Res.built newa := by
  intro K
  induction K with
  | zero =>
    rintro newsz ⟨j, hj⟩ hthr
    rw [pow_zero, mul_one] at hthr
    have h2048 : 2048 ≤ newsz := le_trans (le_max_left _ _) hthr
    have h64 : 64 * (nzListCount a.data + 1) ≤ newsz := le_trans (le_max_right _ _) hthr
    obtain ⟨t0, halloc⟩ := jl_alloc_int_1d_isSome np newsz hnp
    have hrows : t0.nrows = newsz := alloc_nrows np newsz t0 halloc
    have hzero : nzCard t0 = 0 := alloc_nzCard_zero np newsz t0 halloc
    have hbudget : nzCard t0 + nzListCount a.data ≤ max_probe t0.nrows := by
      rw [hzero, hrows]
      unfold max_probe
      rw [if_neg (by omega), Nat.shiftRight_eq_div_pow]
      have h26 : (2 : Nat) ^ 6 = 64 := by norm_num
      rw [h26]
      omega
    obtain ⟨t1, hfill⟩ := rehashFill_succeeds hashf a.data t0 j (by omega) (by omega) hbudget
    exact ⟨t1, rehashLoop_step_built hashf a np newsz 0 t0 t1 halloc hfill⟩
  | succ K ih =>
    rintro newsz ⟨j, hj⟩ hthr
    obtain ⟨t0, halloc⟩ := jl_alloc_int_1d_isSome np newsz hnp
    cases hfill : rehashFill hashf a.data t0 with
    | some t1 => exact ⟨t1, rehashLoop_step_built hashf a np newsz (K + 1) t0 t1 halloc hfill⟩
    | none =>
      have hthr2 : max 2048 (64 * (nzListCount a.data + 1)) ≤ (newsz <<< 1) * 2 ^ K := by
        rw [shiftLeft_one]
        calc max 2048 (64 * (nzListCount a.data + 1)) ≤ newsz * 2 ^ (K + 1) := hthr
        _ = newsz * 2 * 2 ^ K := by ring
      obtain ⟨newa, hre⟩ := ih (newsz <<< 1) ⟨j + 1, by rw [shiftLeft_one, hj, pow_succ]⟩ hthr2
      refine ⟨newa, ?_⟩
      rw [rehashLoop_step_retry hashf a np newsz (K + 1) t0 halloc hfill]
      exact hre

theorem rehashLoop_built_extra (hashf : Nat → Nat) (a : JlArray) (np : Nat)
    (hle : ∀ v ∈ a.data, v ≤ np) :
    ∀ fuel newsz newa, rehashLoop hashf a np newsz fuel = Res.built newa →
      (∀ w ∈ newa.data, w = 0 ∨ w ∈ a.data) ∧ nzCard newa ≤ nzListCount a.data := by
  intro fuel
  induction fuel with
  | zero => intro newsz newa h; exact absurd h (by simp [rehashLoop])
  | succ n ih =>
    intro newsz newa h
    cases halloc : jl_alloc_int_1d np newsz with
    | none =>
      simp only [rehashLoop, halloc] at h
      exact absurd h (by simp)
    | some t0 =>
      obtain ⟨hnps, hdata⟩ := jl_alloc_int_1d_some_spec np newsz t0 halloc
      cases hfill : rehashFill hashf a.data t0 with
      | some t1 =>
        rw [rehashLoop_step_built hashf a np newsz n t0 t1 halloc hfill] at h
        injection h with h
        subst h
        obtain ⟨hc, hval⟩ := rehashFill_count_values hashf a.data t0 t1 hfill
        have hzero : nzCard t0 = 0 := alloc_nzCard_zero np newsz t0 halloc
        refine ⟨?_, by omega⟩
        intro w hw
        rcases hval w hw with hin | ⟨v, hv, he⟩
        · left
          rw [hdata] at hin
          exact List.eq_of_mem_replicate hin
        · right
          have hvlt : v < storeMod t0.elty := lt_of_le_of_lt (hle v hv) hnps
          rw [he, Nat.mod_eq_of_lt hvlt]
          exact hv
      | none =>
        rw [rehashLoop_step_retry hashf a np newsz n t0 halloc hfill] at h
        exact ih (newsz <<< 1) newa h

theorem smallintset_rehash_succeeds (hashf : Nat → Nat) (a : JlArray) (np : Nat)
    (hbound : computeNp a np < 0x7FFFFFFF) (K newsz : Nat) (hpow : ∃ j, newsz = 2 ^ j)
    (hthr : max 2048 (64 * (nzListCount a.data + 1)) ≤ newsz * 2 ^ K)
    (fuel : Nat) (hfuel : K + 1 ≤ fuel) :
    ∃ newa, smallintset_rehash hashf a newsz np fuel = Res.built newa := by
  obtain ⟨newa, h⟩ := rehashLoop_succeeds hashf a (computeNp a np) hbound K newsz hpow hthr
  exact ⟨newa, rehashLoop_mono hashf a _ (K + 1) fuel newsz newa hfuel h⟩

theorem growNewsz_pow_double (sz k : Nat) (hsz : sz = 2 ^ k) :
    2 * sz ≤ growNewsz sz ∧ ∃ k1, growNewsz sz = 2 ^ k1 := by
  unfold growNewsz HT_N_INLINE
  split_ifs with h1 h2
  · have hlt : (2 : Nat) ^ k < 2 ^ 5 := by
      rw [← hsz]
      simpa using h1
    have hk5 : k < 5 := (Nat.pow_lt_pow_iff_right (by norm_num)).mp hlt
    have hle : 2 ^ k ≤ 2 ^ 4 := Nat.pow_le_pow_right (by norm_num) (by omega)
    refine ⟨by rw [hsz]; norm_num at hle ⊢; omega, 5, by norm_num⟩
  · rw [shiftLeft_one]
    exact ⟨by omega, k + 1, by rw [hsz, pow_succ]⟩
  · rw [shiftLeft_two]
    exact ⟨by omega, k + 2, by rw [hsz, pow_add]; norm_num⟩

theorem insertLoopTop_succeeds (hashf : Nat → Nat) (val B rf : Nat) :
    ∀ m a pubs,
      (∃ k, a.nrows = 2 ^ k) →
      (∀ v ∈ a.data, v < 0x7FFFFFFF) →
      nzCard a ≤ B →
      max 2048 (64 * (B + 1)) ≤ a.nrows * 2 ^ m →
      m ≤ rf →
      ∃ lf t pr, insertLoopTop hashf val rf a pubs lf = IRes.done t pr := by
  intro m
  induction m with
  | zero =>
    rintro a pubs ⟨k, hk⟩ hvals hB hthr _
    rw [pow_zero, mul_one] at hthr
    have h2048 : 2048 ≤ a.nrows := le_trans (le_max_left _ _) hthr
    have h64 : 64 * (B + 1) ≤ a.nrows := le_trans (le_max_right _ _) hthr
    have hcount : nzCard a ≤ max_probe a.nrows := by
      unfold max_probe
      rw [if_neg (by omega), Nat.shiftRight_eq_div_pow]
      have h26 : (2 : Nat) ^ 6 = 64 := by norm_num
      rw [h26]
      omega
    obtain ⟨a1, hins⟩ :=
      smallintset_insert__succeeds a (hashf val) (val + 1) k hk (by omega) hcount
    exact ⟨1, a1, pubs, by simp only [insertLoopTop, hins]⟩
  | succ m ih =>
    rintro a pubs ⟨k, hk⟩ hvals hB hthr hrf
    cases hins : smallintset_insert_ a (hashf val) (val + 1) with
    | some a1 => exact ⟨1, a1, pubs, by simp only [insertLoopTop, hins]⟩
    | none =>
      have hnp : computeNp a 0 < 0x7FFFFFFF := computeNp_lt a 0 _ (by norm_num) hvals
      obtain ⟨hd, k1, hk1⟩ := growNewsz_pow_double a.nrows k hk
      have hthr2 : max 2048 (64 * (B + 1)) ≤ growNewsz a.nrows * 2 ^ m := by
        calc max 2048 (64 * (B + 1)) ≤ a.nrows * 2 ^ (m + 1) := hthr
        _ = (2 * a.nrows) * 2 ^ m := by ring
        _ ≤ growNewsz a.nrows * 2 ^ m := mul_le_mul_right' hd _
      have hBnz : nzListCount a.data ≤ B := by
        rw [← nzCard_eq_nzListCount]
        exact hB
      have hthr3 : max 2048 (64 * (nzListCount a.data + 1)) ≤ growNewsz a.nrows * 2 ^ m := by
        refine le_trans (max_le_max (le_refl _) ?_) hthr2
        omega
      obtain ⟨newa, hreh⟩ := smallintset_rehash_succeeds hashf a 0 hnp m
        (growNewsz a.nrows) ⟨k1, hk1⟩ hthr3 rf hrf
      obtain ⟨_, _, i, hrows⟩ :=
        smallintset_rehash_built_spec hashf a (growNewsz a.nrows) 0 rf newa hreh
      obtain ⟨hvalsub, hcnt⟩ := rehashLoop_built_extra hashf a (computeNp a 0)
        ((computeNp_ge a 0).2) rf (growNewsz a.nrows) newa hreh
      have hvals1 : ∀ v ∈ newa.data, v < 0x7FFFFFFF := by
        intro v hv
        rcases hvalsub v hv with rfl | hin
        · norm_num
        · exact hvals v hin
      have hB1 : nzCard newa ≤ B := le_trans hcnt hBnz
      have hpow1 : ∃ k2, newa.nrows = 2 ^ k2 := ⟨k1 + i, by rw [hrows, hk1, pow_add]⟩
      have hthr4 : max 2048 (64 * (B + 1)) ≤ newa.nrows * 2 ^ m := by
        have hge : growNewsz a.nrows ≤ newa.nrows := by
          rw [hrows]
          calc growNewsz a.nrows = growNewsz a.nrows * 1 := (mul_one _).symm
          _ ≤ growNewsz a.nrows * 2 ^ i :=
            Nat.mul_le_mul_left (growNewsz a.nrows) Nat.one_le_two_pow
        exact le_trans hthr2 (mul_le_mul_right' hge _)
      obtain ⟨lf, t, pr, hloop⟩ := ih newa (pubs ++ [newa]) hpow1 hvals1 hB1 hthr4 (by omega)
      refine ⟨lf + 1, t, pr, ?_⟩
      simp only [insertLoopTop, hins, hreh]
      exact hloop

theorem exists_thr_pow (thr c : Nat) (hc : 1 ≤ c) : thr ≤ c * 2 ^ thr := by
  have h1 : thr < 2 ^ thr := Nat.lt_two_pow thr
  calc thr ≤ 2 ^ thr := le_of_lt h1
  _ = 1 * 2 ^ thr := (one_mul _).symm
  _ ≤ c * 2 ^ thr := mul_le_mul_right' hc _

/-- C9: rehash terminates — for every old table, in-domain required value and
power-of-two starting capacity there is a fuel bound after which the retry
loop has built and published a table; and insert terminates — for every
power-of-two-capacity table with in-domain contents and every in-domain
logical index there are fuel bounds after which `jl_smallintset_insert`
completes, because the probe bound grows with capacity until all existing
entries fit. -/
theorem C9_termination :
    (∀ (hashf : Nat → Nat) (a : JlArray) (np j : Nat),
        computeNp a np < 0x7FFFFFFF →
        ∃ fuel newa, smallintset_rehash hashf a (2 ^ j) np fuel = Res.built newa)
      ∧ ∀ (hashf : Nat → Nat) (a : JlArray) (val : Nat),
          (∃ k, a.nrows = 2 ^ k) →
          (∀ v ∈ a.data, v < 0x7FFFFFFF) →
          val + 1 < 0x7FFFFFFF →
          ∃ rf lf t pubs, jl_smallintset_insert hashf a val rf lf = IRes.done t pubs := by
  constructor
  · intro hashf a np j hnp
    obtain ⟨newa, h⟩ := smallintset_rehash_succeeds hashf a np hnp
      (max 2048 (64 * (nzListCount a.data + 1))) (2 ^ j) ⟨j, rfl⟩
      (exists_thr_pow _ _ Nat.one_le_two_pow)
      (max 2048 (64 * (nzListCount a.data + 1)) + 1) (le_refl _)
    exact ⟨_, newa, h⟩
  · rintro hashf a val ⟨k, hk⟩ hvals hval
    by_cases hwide : val + 1 > jl_max_int a.elty
    · have hnp : computeNp a (val + 1) < 0x7FFFFFFF := computeNp_lt a _ _ hval hvals
      have hBnz : nzListCount a.data = nzCard a := (nzCard_eq_nzListCount a).symm
      set K0 := max 2048 (64 * (nzListCount a.data + 1)) with hK0def
      set m1 := max 2048 (64 * (nzCard a + 1)) with hm1def
      set rf := max (K0 + 1) m1 with hrfdef
      obtain ⟨newa, hreh⟩ := smallintset_rehash_succeeds hashf a (val + 1) hnp K0 a.nrows
        ⟨k, hk⟩ (by rw [hk]; exact exists_thr_pow _ _ Nat.one_le_two_pow) rf
        (le_max_left _ _)
      obtain ⟨_, _, i, hrows⟩ :=
        smallintset_rehash_built_spec hashf a a.nrows (val + 1) rf newa hreh
      obtain ⟨hvalsub, hcnt⟩ := rehashLoop_built_extra hashf a (computeNp a (val + 1))
        ((computeNp_ge a (val + 1)).2) rf a.nrows newa hreh
      have hvals1 : ∀ v ∈ newa.data, v < 0x7FFFFFFF := by
        intro v hv
        rcases hvalsub v hv with rfl | hin
        · norm_num
        · exact hvals v hin
      have hB1 : nzCard newa ≤ nzCard a := by
        rw [← hBnz]
        exact hcnt
      have hpow1 : ∃ k2, newa.nrows = 2 ^ k2 := ⟨k + i, by rw [hrows, hk, pow_add]⟩
      have hrows1 : 1 ≤ newa.nrows := by
        obtain ⟨k2, hk2⟩ := hpow1
        rw [hk2]
        exact Nat.one_le_two_pow
      obtain ⟨lf, t, pr, hloop⟩ := insertLoopTop_succeeds hashf val (nzCard a) rf m1 newa
        [newa] hpow1 hvals1 hB1 (exists_thr_pow _ _ hrows1) (le_max_right _ _)
      refine ⟨rf, lf, t, pr, ?_⟩
      unfold jl_smallintset_insert
      rw [if_pos hwide]
      simp only [hreh]
      exact hloop
    · set m1 := max 2048 (64 * (nzCard a + 1)) with hm1def
      have hrows1 : 1 ≤ a.nrows := by
        rw [hk]
        exact Nat.one_le_two_pow
      obtain ⟨lf, t, pr, hloop⟩ := insertLoopTop_succeeds hashf val (nzCard a) m1 m1 a
        [] ⟨k, hk⟩ hvals (le_refl _) (exists_thr_pow _ _ hrows1) (le_refl _)
      refine ⟨m1, lf, t, pr, ?_⟩
      unfold jl_smallintset_insert
      rw [if_neg hwide]
      exact hloop

/-- C9 witness: a rehash of the baseline table at capacity 32 and an insert
of logical index 7 into the baseline table both complete. -/
theorem C9_termination_witness :
    computeNp initTable 5 < 0x7FFFFFFF
      ∧ (∃ fuel newa, smallintset_rehash (fun v => v) initTable (2 ^ 5) 5 fuel = Res.built newa)
      ∧ (∃ k, initTable.nrows = 2 ^ k) ∧ (∀ v ∈ initTable.data, v < 0x7FFFFFFF)
      ∧ 7 + 1 < 0x7FFFFFFF
      ∧ ∃ rf lf t pubs, jl_smallintset_insert (fun v => v) initTable 7 rf lf = IRes.done t pubs :=
  ⟨by decide, C9_termination.1 (fun v => v) initTable 5 5 (by decide),
   ⟨5, by decide⟩, by decide, by decide,
   C9_termination.2 (fun v => v) initTable 7 ⟨5, by decide⟩ (by decide) (by decide)⟩

/-- C7 witness: the empty-table case and a found value on a 4-slot table. -/
theorem C7_lookup_matches_spec_witness :
    jl_smallintset_lookup (JlArray.mk ElType.u8 []) (fun _ => true) 7 = none
      ∧ jl_smallintset_lookup (JlArray.mk ElType.u8 [0, 0, 0, 2]) (fun i => i == 1) 3
        = lookupSpec (JlArray.mk ElType.u8 [0, 0, 0, 2]) (fun i => i == 1) 3 :=
  ⟨C7_lookup_matches_spec.1 (JlArray.mk ElType.u8 []) (fun _ => true) 7 rfl,
   C7_lookup_matches_spec.2 (JlArray.mk ElType.u8 [0, 0, 0, 2]) (fun i => i == 1) 3 2 rfl⟩

end SmallIntSet
